import Mathlib

/-!
Verification of the virtual-serial (bit-banged GPIO) receiver in
`virtualserial.py` of mantadk/groundstation_data_handler.

The receiver reads four digital lines: Notify, Enable (output), Data, Clock.
We embed the program shallowly:

* The environment is modelled as three boolean streams indexed by a global
  poll counter: every `GPIO.input` call consumes one tick, so `notify t`,
  `clock t` and `data t` are the levels the corresponding line would show at
  the t-th input poll of the run.
* Busy-wait loops (`while GPIO.input(..) == ..: pass`) become fuel-bounded
  searches returning `Option`: `none` means the loop had not yet returned
  within the given number of polls.
* The receiver state carries the poll counter and the current level of the
  Enable output line.
* `read_char` additionally records the trace of line operations it performs,
  so that the per-bit enable/clock handshake can be stated as a theorem.
-/

namespace VirtualSerial

/-- Python `bool_arr_to_char` loop body, embedded with an explicit index and
iteration count: `c = 0; for i in range(8): c |= bits[i] << i`.  A Python
`bits[i]` with `i` out of range raises `IndexError`, modelled as `none`. -/
def or_bits (bits : List Bool) (c : Nat) (i : Nat) : Nat → Option Nat
  | 0 => some c
  | n + 1 =>
    match bits.get? i with
    | none => none
    | some b => or_bits bits (c ||| ((cond b 1 0) <<< i)) (i + 1) n

/-- Python `bool_arr_to_char(bits)`: OR together `bits[i] << i` for
`i in range(8)` and return `chr(c)`. -/
def bool_arr_to_char (bits : List Bool) : Option Char :=
  (or_bits bits 0 0 8).map Char.ofNat

/-- Modelled from the spec: the 8-bit least-significant-bit-first
decomposition of a byte value (`bits_of` in §8 of the spec); the source
repository has no such function, it only assembles bits. -/
def bits_of (b : Nat) : List Bool :=
  (List.range 8).map b.testBit

/-- The simulated peer: the levels the Notify, Clock and Data input lines
show at each input poll of the run (one tick per `GPIO.input` call).  A
fixed `Env` is one fixed sequence of simulated line transitions. -/
structure Env where
  notify : Nat → Bool
  clock : Nat → Bool
  data : Nat → Bool

/-- Receiver-visible state: the poll counter and the current level of the
Enable output line. -/
structure GpioState where
  time : Nat
  enable : Bool
deriving DecidableEq

/-- Line operations performed by the bit sampler, in program order:
writing the Enable output, a completed busy-wait until the Clock input
reads the target level, and one sample of the Data input. -/
inductive Ev where
  | writeEnable (level : Bool)
  | waitClock (target : Bool)
  | sample (value : Bool)
deriving DecidableEq

/-- A busy-wait `while GPIO.input(line) != target: pass`, fuel-bounded:
poll the line once per tick and stop right after the first poll that reads
`target`; `none` means the loop had not returned within `fuel` polls. -/
def wait_for (line : Nat → Bool) (target : Bool) : Nat → Nat → Option Nat
  | 0, _ => none
  | fuel + 1, t => if line t = target then some (t + 1) else wait_for line target fuel (t + 1)

/-- Python `wait_for_notif`: spin until the Notify input reads high. -/
def wait_for_notif (env : Env) (fuel : Nat) (s : GpioState) : Option GpioState :=
  (wait_for env.notify true fuel s.time).map (fun t => { s with time := t })

/-- Python `enable()`: drive the Enable output high. -/
def enable (s : GpioState) : GpioState := { s with enable := true }

/-- Python `disable()`: drive the Enable output low. -/
def disable (s : GpioState) : GpioState := { s with enable := false }

/-- Python `read()`: sample the Data input once. -/
def read (env : Env) (s : GpioState) : Bool × GpioState :=
  (env.data s.time, { s with time := s.time + 1 })

/-- Python `wait_for_clock_high`: spin until the Clock input reads high. -/
def wait_for_clock_high (env : Env) (fuel : Nat) (s : GpioState) : Option GpioState :=
  (wait_for env.clock true fuel s.time).map (fun t => { s with time := t })

/-- Python `wait_for_clock_low`: spin until the Clock input reads low. -/
def wait_for_clock_low (env : Env) (fuel : Nat) (s : GpioState) : Option GpioState :=
  (wait_for env.clock false fuel s.time).map (fun t => { s with time := t })

/-- The five line operations of one full enable/clock handshake sampling
the bit `b`: Enable high, wait Clock high, sample, Enable low, wait Clock
low. -/
def bitEvents (b : Bool) : List Ev :=
  [.writeEnable true, .waitClock true, .sample b, .writeEnable false, .waitClock false]

/-- One handshake block per sampled bit, concatenated in order. -/
def handshakes : List Bool → List Ev
  | [] => []
  | b :: bs => bitEvents b ++ handshakes bs

/-- The `for _ in range(8)` loop body of Python `read_char`, generalized to
`n` iterations: each iteration runs `enable(); wait_for_clock_high();
bits.append(read()); disable(); wait_for_clock_low()`.  Returns the sampled
bits, the final state, and the trace of line operations performed. -/
def read_bits (env : Env) (pf : Nat) : Nat → GpioState → Option (List Bool × GpioState × List Ev)
  | 0, s => some ([], s, [])
  | n + 1, s =>
    match wait_for_clock_high env pf (enable s) with
    | none => none
    | some s1 =>
      let (b, s2) := read env s1
      match wait_for_clock_low env pf (disable s2) with
      | none => none
      | some s3 =>
        match read_bits env pf n s3 with
        | none => none
        | some (bs, s4, evs) => some (b :: bs, s4, bitEvents b ++ evs)

/-- Python `read_char`: sample 8 bits over the enable/clock handshake and
assemble them with `bool_arr_to_char`. -/
def read_char (env : Env) (pf : Nat) (s : GpioState) : Option (Char × GpioState × List Ev) :=
  match read_bits env pf 8 s with
  | none => none
  | some (bs, s1, evs) =>
    match bool_arr_to_char bs with
    | none => none
    | some c => some (c, s1, evs)

/-- The `while True` loop of Python `read_vuart_string`, fuel-bounded in
the number of decoded characters: read a character; on line-feed return
the accumulated message without appending, otherwise append and loop. -/
def read_loop (env : Env) (pf : Nat) : Nat → GpioState → List Char → Option (List Char × GpioState)
  | 0, _, _ => none
  | mf + 1, s, acc =>
    match read_char env pf s with
    | none => none
    | some (c, s1, _) =>
      if c = '\n' then some (acc, s1)
      else read_loop env pf mf s1 (acc ++ [c])

/-- Python `read_vuart_string` (the Message Reader, spec `read_message()`):
wait for Notify, then decode characters until a line-feed is produced. -/
def read_vuart_string (env : Env) (pf mf : Nat) (s : GpioState) : Option (List Char × GpioState) :=
  match wait_for_notif env pf s with
  | none => none
  | some s1 => read_loop env pf mf s1 []

/-- A concrete simulated peer transmitting the given byte list: Notify is
held high, the Clock pulses so that every busy-wait succeeds on its first
poll (high on ticks ≡ 1 mod 3, low otherwise), and the Data line carries
bit `k % 8` of byte `k / 8` (LSB first) at the sampling tick of bit `k`. -/
def streamEnv (bytes : List Nat) : Env where
  notify := fun _ => true
  clock := fun t => t % 3 == 1
  data := fun t =>
    if t % 3 == 2 then (bytes.getD ((t - 2) / 3 / 8) 0).testBit (((t - 2) / 3) % 8)
    else false

/-- `or_bits` only looks at `bits` through `List.get?` at indices
`i, i+1, …`, so appending elements past index `i + n - 1` cannot change a
run that stays in range. -/
lemma or_bits_append (bits extra : List Bool) :
    ∀ (n i c : Nat), i + n ≤ bits.length →
      or_bits (bits ++ extra) c i n = or_bits bits c i n := by
  intro n
  induction n with
  | zero => intro i c _; rfl
  | succ n ih =>
    intro i c h
    have hi : i < bits.length := by omega
    have hget : (bits ++ extra).get? i = bits.get? i := by
      simp [List.get?_eq_getElem?, List.getElem?_append_left hi]
    have hb : bits.get? i = some (bits.get ⟨i, hi⟩) := List.get?_eq_get hi
    simp only [or_bits, hget, hb]
    exact ih (i + 1) _ (by omega)

/-- When the remaining iterations would step past the end of `bits`, the
loop hits the `IndexError` branch. -/
lemma or_bits_short (bits : List Bool) :
    ∀ (n i c : Nat), bits.length < i + n → i ≤ bits.length →
      or_bits bits c i n = none := by
  intro n
  induction n with
  | zero => intro i c h h'; omega
  | succ n ih =>
    intro i c h h'
    rcases Nat.lt_or_ge i bits.length with hi | hi
    · have hb : bits.get? i = some (bits.get ⟨i, hi⟩) := List.get?_eq_get hi
      simp only [or_bits, hb]
      exact ih (i + 1) _ (by omega) (by omega)
    · have hget : bits.get? i = none := List.get?_eq_none.mpr hi
      simp only [or_bits, hget]

/-- A successful busy-wait reports a strictly later tick, read the target
level on its final poll, and read only non-target levels on every earlier
poll (the polls cover every tick from `t0` up to the final one). -/
lemma wait_for_some (line : Nat → Bool) (target : Bool) :
    ∀ (fuel t0 t1 : Nat), wait_for line target fuel t0 = some t1 →
      t0 < t1 ∧ line (t1 - 1) = target ∧
        ∀ u, t0 ≤ u → u < t1 - 1 → line u ≠ target := by
  intro fuel
  induction fuel with
  | zero => intro t0 t1 h; simp [wait_for] at h
  | succ fuel ih =>
    intro t0 t1 h
    by_cases hl : line t0 = target
    · simp [wait_for, hl] at h
      refine ⟨by omega, ?_, ?_⟩
      · rw [show t1 - 1 = t0 by omega]; exact hl
      · intro u hu1 hu2; omega
    · simp only [wait_for, hl, if_neg, ite_false] at h
      obtain ⟨h1, h2, h3⟩ := ih (t0 + 1) t1 h
      refine ⟨by omega, h2, ?_⟩
      intro u hu1 hu2
      rcases Nat.eq_or_lt_of_le hu1 with hu | hu
      · rw [← hu]; exact hl
      · exact h3 u (by omega) hu2

/-- If the line never shows the target level, the busy-wait never returns,
for any fuel bound. -/
lemma wait_for_none (line : Nat → Bool) (target : Bool)
    (hne : ∀ t, line t ≠ target) :
    ∀ (fuel t0 : Nat), wait_for line target fuel t0 = none := by
  intro fuel
  induction fuel with
  | zero => intro t0; rfl
  | succ fuel ih =>
    intro t0
    simp only [wait_for, hne t0, if_neg, ite_false]
    exact ih (t0 + 1)

/-- Waiting on the clock only advances the poll counter. -/
lemma wait_for_clock_low_enable {env : Env} {pf : Nat} {s s1 : GpioState}
    (h : wait_for_clock_low env pf s = some s1) : s1.enable = s.enable := by
  unfold wait_for_clock_low at h
  cases hw : wait_for env.clock false pf s.time with
  | none => rw [hw] at h; cases h
  | some t =>
    rw [hw] at h
    simp only [Option.map_some', Option.some_inj] at h
    rw [← h]

/-- The bit-sampling loop samples one bit per iteration and its trace is
exactly one full five-step handshake block per sampled bit, in order. -/
lemma read_bits_trace (env : Env) (pf : Nat) :
    ∀ (n : Nat) (s : GpioState) (bs : List Bool) (s1 : GpioState) (evs : List Ev),
      read_bits env pf n s = some (bs, s1, evs) →
      bs.length = n ∧ evs = handshakes bs := by
  intro n
  induction n with
  | zero =>
    intro s bs s1 evs h
    simp only [read_bits, Option.some_inj, Prod.mk.injEq] at h
    obtain ⟨h1, -, h3⟩ := h
    subst h1; subst h3
    exact ⟨rfl, rfl⟩
  | succ n ih =>
    intro s bs s1 evs h
    simp only [read_bits, read] at h
    split at h
    next => cases h
    next t1 heq1 =>
      split at h
      next => cases h
      next t2 heq2 =>
        split at h
        next => cases h
        next bs2 s4 evs2 heq3 =>
          simp only [Option.some_inj, Prod.mk.injEq] at h
          obtain ⟨hb, -, he⟩ := h
          obtain ⟨ihl, ihe⟩ := ih t2 bs2 s4 evs2 heq3
          subst hb; subst he
          constructor
          · simp [ihl]
          · simp [handshakes, ihe]

/-- After sampling at least one bit, the Enable output is left low: each
handshake deasserts Enable before its final clock wait, which does not
touch it. -/
lemma read_bits_enable (env : Env) (pf : Nat) :
    ∀ (n : Nat) (s : GpioState) (bs : List Bool) (s1 : GpioState) (evs : List Ev),
      0 < n → read_bits env pf n s = some (bs, s1, evs) → s1.enable = false := by
  intro n
  induction n with
  | zero => intro s bs s1 evs hn; omega
  | succ n ih =>
    intro s bs s1 evs hn h
    simp only [read_bits, read] at h
    split at h
    next => cases h
    next t1 heq1 =>
      split at h
      next => cases h
      next t2 heq2 =>
        cases n with
        | zero =>
          simp only [read_bits, Option.some_inj, Prod.mk.injEq] at h
          obtain ⟨-, hs, -⟩ := h
          rw [← hs, wait_for_clock_low_enable heq2]
          rfl
        | succ m =>
          split at h
          next => cases h
          next bs2 s4 evs2 heq3 =>
            simp only [Option.some_inj, Prod.mk.injEq] at h
            obtain ⟨-, hs, -⟩ := h
            rw [← hs]
            exact ih t2 bs2 s4 evs2 (by omega) heq3

/-- A completed character read leaves the Enable output low. -/
lemma read_char_enable {env : Env} {pf : Nat} {s : GpioState} {c : Char}
    {s1 : GpioState} {evs : List Ev}
    (h : read_char env pf s = some (c, s1, evs)) : s1.enable = false := by
  unfold read_char at h
  split at h
  next => cases h
  next bs s2 evs2 heq1 =>
    split at h
    next => cases h
    next c2 heq2 =>
      simp only [Option.some_inj, Prod.mk.injEq] at h
      obtain ⟨-, hs, -⟩ := h
      rw [← hs]
      exact read_bits_enable env pf 8 s bs s2 evs2 (by omega) heq1

/-- The message loop never returns a buffer with a line-feed if the
accumulator has none: the line-feed branch returns without appending. -/
lemma read_loop_no_lf (env : Env) (pf : Nat) :
    ∀ (mf : Nat) (s : GpioState) (acc msg : List Char) (s1 : GpioState),
      read_loop env pf mf s acc = some (msg, s1) →
      Char.ofNat 10 ∉ acc → Char.ofNat 10 ∉ msg := by
  intro mf
  induction mf with
  | zero => intro s acc msg s1 h; cases h
  | succ mf ih =>
    intro s acc msg s1 h hacc
    simp only [read_loop] at h
    split at h
    next => cases h
    next c s2 evs heq1 =>
      split at h
      next hc =>
        simp only [Option.some_inj, Prod.mk.injEq] at h
        obtain ⟨hm, -⟩ := h
        rw [← hm]
        exact hacc
      next hc =>
        refine ih s2 (acc ++ [c]) msg s1 h ?_
        intro hmem
        rcases List.mem_append.mp hmem with hmem | hmem
        · exact hacc hmem
        · refine hc ?_
          rw [← List.mem_singleton.mp hmem]

/-- The message loop, when it returns, returns the state of its final
character read, whose Enable level is low. -/
lemma read_loop_enable (env : Env) (pf : Nat) :
    ∀ (mf : Nat) (s : GpioState) (acc msg : List Char) (s1 : GpioState),
      read_loop env pf mf s acc = some (msg, s1) → s1.enable = false := by
  intro mf
  induction mf with
  | zero => intro s acc msg s1 h; cases h
  | succ mf ih =>
    intro s acc msg s1 h
    simp only [read_loop] at h
    split at h
    next => cases h
    next c s2 evs heq1 =>
      split at h
      next hc =>
        simp only [Option.some_inj, Prod.mk.injEq] at h
        obtain ⟨-, hs⟩ := h
        rw [← hs]
        exact read_char_enable heq1
      next hc =>
        exact ih s2 (acc ++ [c]) msg s1 h

end VirtualSerial

open VirtualSerial

set_option maxRecDepth 4000 in
/-- C2: for every byte value `b` in 0..255, assembling the 8-bit LSB-first
decomposition of `b` with `bool_arr_to_char` yields the character of code
point `b`: the byte assembler inverts bit-decomposition on all 256 bytes. -/
theorem assemble_inverts_bits_of :
    ∀ b : Fin 256,
      (bool_arr_to_char (bits_of b.val)).map Char.toNat = some b.val := by
  decide

/-- C3: on a Bit Sequence of exactly 8 bits the assembler returns the
character whose code is `Σ bit[i] * 2^i` for `i = 0..7`, LSB first, using
exactly indices 0 through 7. -/
theorem assemble_is_lsb_first_sum :
    ∀ b0 b1 b2 b3 b4 b5 b6 b7 : Bool,
      bool_arr_to_char [b0, b1, b2, b3, b4, b5, b6, b7] =
        some (Char.ofNat
          ((cond b0 1 0) * 2 ^ 0 + (cond b1 1 0) * 2 ^ 1 +
           (cond b2 1 0) * 2 ^ 2 + (cond b3 1 0) * 2 ^ 3 +
           (cond b4 1 0) * 2 ^ 4 + (cond b5 1 0) * 2 ^ 5 +
           (cond b6 1 0) * 2 ^ 6 + (cond b7 1 0) * 2 ^ 7)) := by
  decide

/-- C9: the byte assembler reads exactly indices 0..7 of its input: on any
list of length 8, appending further elements does not change the result,
and on any list of fewer than 8 elements the out-of-range index access
fails (`none`). -/
theorem assemble_reads_exactly_eight :
    (∀ bits extra : List Bool, bits.length = 8 →
        bool_arr_to_char (bits ++ extra) = bool_arr_to_char bits) ∧
    (∀ bits : List Bool, bits.length < 8 → bool_arr_to_char bits = none) := by
  constructor
  · intro bits extra h
    unfold bool_arr_to_char
    rw [or_bits_append bits extra 8 0 0 (by omega)]
  · intro bits h
    unfold bool_arr_to_char
    rw [or_bits_short bits 8 0 0 (by omega) (by omega)]
    rfl

/-- Witness for C9: concrete instances of both conjuncts. -/
theorem assemble_reads_exactly_eight_witness :
    bool_arr_to_char
        ([true, false, true, false, false, true, true, false] ++ [true]) =
      bool_arr_to_char [true, false, true, false, false, true, true, false] ∧
    bool_arr_to_char [true, false] = none :=
  ⟨assemble_reads_exactly_eight.1 _ [true] (by decide),
   assemble_reads_exactly_eight.2 [true, false] (by decide)⟩

/-- C1: for every bit sampled, `read_char` performs exactly the five-step
sequence Enable high, wait Clock high, sample Data, Enable low, wait Clock
low, and this full enable/clock handshake is repeated exactly 8 times per
byte — one complete handshake block per bit, never coalesced. -/
theorem per_bit_handshake :
    (∀ (env : Env) (pf n : Nat) (s : GpioState) (bs : List Bool)
        (s1 : GpioState) (evs : List Ev),
        read_bits env pf n s = some (bs, s1, evs) →
        bs.length = n ∧ evs = handshakes bs) ∧
    (∀ (env : Env) (pf : Nat) (s : GpioState) (c : Char) (s1 : GpioState)
        (evs : List Ev),
        read_char env pf s = some (c, s1, evs) →
        ∃ bs : List Bool, bs.length = 8 ∧ evs = handshakes bs ∧
          bool_arr_to_char bs = some c) := by
  constructor
  · intro env pf n s bs s1 evs h
    exact read_bits_trace env pf n s bs s1 evs h
  · intro env pf s c s1 evs h
    unfold read_char at h
    split at h
    next => cases h
    next bs s2 evs2 heq1 =>
      split at h
      next => cases h
      next c2 heq2 =>
        simp only [Option.some_inj, Prod.mk.injEq] at h
        obtain ⟨hc, -, he⟩ := h
        obtain ⟨hl, hev⟩ := read_bits_trace env pf 8 s bs s2 evs2 heq1
        exact ⟨bs, hl, he ▸ hev, hc ▸ heq2⟩

/-- Witness for C1: one sampled bit produces one five-step handshake. -/
theorem per_bit_handshake_witness :
    ([false] : List Bool).length = 1 ∧ bitEvents false = handshakes [false] :=
  per_bit_handshake.1 (streamEnv [10]) 1 1 ⟨1, false⟩ [false] ⟨4, false⟩
    (bitEvents false) (by decide)

/-- C4: whenever the Message Reader returns on a simulated line-transition
sequence, the returned Message contains no line-feed character (code 10):
decoding stops at the first assembled line-feed without appending it. -/
theorem message_has_no_line_feed :
    ∀ (env : Env) (pf mf : Nat) (s : GpioState) (msg : List Char) (s1 : GpioState),
      read_vuart_string env pf mf s = some (msg, s1) → Char.ofNat 10 ∉ msg := by
  intro env pf mf s msg s1 h
  unfold read_vuart_string at h
  split at h
  next => cases h
  next s2 heq => exact read_loop_no_lf env pf mf s2 [] msg s1 h (by simp)

/-- Witness for C4: the decoded message "hi" has no line-feed. -/
theorem message_has_no_line_feed_witness :
    Char.ofNat 10 ∉ (['h', 'i'] : List Char) :=
  message_has_no_line_feed (streamEnv [104, 105, 10]) 1 3 ⟨0, false⟩ ['h', 'i']
    ⟨73, false⟩ (by decide)

/-- C5: on the simulated sequence raising Notify and transmitting the bytes
0x68, 0x69, 0x0A, each as 8 LSB-first bits over the enable/clock handshake,
the Message Reader returns exactly the two-character string "hi". -/
theorem reads_hi :
    (read_vuart_string (streamEnv [104, 105, 10]) 1 3 ⟨0, false⟩).map
      (fun r => String.mk r.fst) = some "hi" := by
  decide

/-- C6: on every simulated sequence whose first byte decoded after the
Notify pulse is the line-feed (code 10), the Message Reader returns the
empty Message. -/
theorem first_byte_line_feed_gives_empty :
    ∀ (env : Env) (pf mf : Nat) (s s1 : GpioState) (c : Char) (s2 : GpioState)
      (evs : List Ev),
      wait_for_notif env pf s = some s1 →
      read_char env pf s1 = some (c, s2, evs) →
      c = Char.ofNat 10 →
      read_vuart_string env pf (mf + 1) s = some ([], s2) := by
  intro env pf mf s s1 c s2 evs h1 h2 hc
  unfold read_vuart_string
  rw [h1]
  show read_loop env pf (mf + 1) s1 [] = some ([], s2)
  simp only [read_loop]
  rw [h2, hc]
  rfl

/-- Witness for C6: a stream whose single byte is 0x0A yields the empty
message. -/
theorem first_byte_line_feed_gives_empty_witness :
    read_vuart_string (streamEnv [10]) 1 1 ⟨0, false⟩ = some ([], ⟨25, false⟩) :=
  first_byte_line_feed_gives_empty (streamEnv [10]) 1 0 ⟨0, false⟩ ⟨1, false⟩
    (Char.ofNat 10) ⟨25, false⟩
    (handshakes [false, true, false, true, false, false, false, false])
    (by decide) (by decide) rfl

/-- C7: a returning busy-wait read only non-target levels on every poll
before the last and the target level on its last poll (polls cover every
tick in between, with no sleep between them); and on a line trace where the
target level never appears, the wait does not return for any fuel bound —
the baseline has no deadline, so a non-responding peer blocks forever. -/
theorem busy_wait_until_target :
    (∀ (line : Nat → Bool) (target : Bool) (fuel t0 t1 : Nat),
        wait_for line target fuel t0 = some t1 →
        t0 < t1 ∧ line (t1 - 1) = target ∧
          ∀ u, t0 ≤ u → u < t1 - 1 → line u ≠ target) ∧
    (∀ (line : Nat → Bool) (target : Bool) (fuel t0 : Nat),
        (∀ t, line t ≠ target) → wait_for line target fuel t0 = none) :=
  ⟨fun line target fuel t0 t1 h => wait_for_some line target fuel t0 t1 h,
   fun line target fuel t0 h => wait_for_none line target h fuel t0⟩

/-- Witness for C7: a wait that returns at tick 3 saw the target on its
final poll, and a wait on a line that never reaches the target returns for
no fuel bound. -/
theorem busy_wait_until_target_witness :
    (0 < 3 ∧ (fun t : Nat => t == 2) (3 - 1) = true) ∧
      wait_for (fun _ => false) true 4 0 = none :=
  ⟨⟨(busy_wait_until_target.1 (fun t : Nat => t == 2) true 5 0 3 (by decide)).1,
    (busy_wait_until_target.1 (fun t : Nat => t == 2) true 5 0 3 (by decide)).2.1⟩,
   busy_wait_until_target.2 (fun _ => false) true 4 0 (fun _ => Bool.false_ne_true)⟩

/-- C8: decoding is deterministic: two runs of the Message Reader over the
same fixed sequence of simulated line transitions produce the same result. -/
theorem decoding_deterministic :
    ∀ (env : Env) (pf mf : Nat) (s : GpioState)
      (r1 r2 : Option (List Char × GpioState)),
      read_vuart_string env pf mf s = r1 → read_vuart_string env pf mf s = r2 →
      r1 = r2 :=
  fun _ _ _ _ _ _ h1 h2 => h1.symm.trans h2

/-- Witness for C8: two runs over the single-byte 0x0A stream agree. -/
theorem decoding_deterministic_witness :
    (some ([], (⟨25, false⟩ : GpioState)) : Option (List Char × GpioState)) =
      some ([], ⟨25, false⟩) :=
  decoding_deterministic (streamEnv [10]) 1 1 ⟨0, false⟩ _ _ (by decide) (by decide)

/-- C10: the Enable output line is low whenever a bit sample completes,
whenever a character read completes, and whenever the Message Reader
returns: every handshake lowers Enable again before its final clock wait. -/
theorem enable_low_on_completion :
    (∀ (env : Env) (pf n : Nat) (s : GpioState) (bs : List Bool)
        (s1 : GpioState) (evs : List Ev),
        read_bits env pf (n + 1) s = some (bs, s1, evs) → s1.enable = false) ∧
    (∀ (env : Env) (pf : Nat) (s : GpioState) (c : Char) (s1 : GpioState)
        (evs : List Ev),
        read_char env pf s = some (c, s1, evs) → s1.enable = false) ∧
    (∀ (env : Env) (pf mf : Nat) (s : GpioState) (msg : List Char) (s1 : GpioState),
        read_vuart_string env pf mf s = some (msg, s1) → s1.enable = false) := by
  refine ⟨?_, ?_, ?_⟩
  · intro env pf n s bs s1 evs h
    exact read_bits_enable env pf (n + 1) s bs s1 evs (by omega) h
  · intro env pf s c s1 evs h
    exact read_char_enable h
  · intro env pf mf s msg s1 h
    unfold read_vuart_string at h
    split at h
    next => cases h
    next s2 heq => exact read_loop_enable env pf mf s2 [] msg s1 h

/-- Witness for C10: the state after decoding the 0x0A stream has Enable
low. -/
theorem enable_low_on_completion_witness :
    (⟨25, false⟩ : GpioState).enable = false :=
  enable_low_on_completion.2.2 (streamEnv [10]) 1 1 ⟨0, false⟩ [] ⟨25, false⟩
    (by decide)
